import Mathlib

/-!
Verification of the sandboxed file-editing and search core of
`@sika7/editor4ai` against its specification.

The embedding follows the TypeScript sources of
`packages/lib/src/core/` (the operation wrappers in
`operations/file-operations.ts`, `operations/search-operations.ts`,
`operations/edit-operations.ts`, the validation guards in
`utils/validation.ts` and the aggregated `main.ts`).  The leaf modules
`core/util.ts`, `core/files.ts`, `core/search.ts` and `core/diff.ts` are
not part of the available sources (only their callers and type imports
are); the definitions standing in for them are modelled from the
specification and are marked `Modelled from the spec:` in their doc
comments.

Conventions of the embedding:
* a filesystem path is its list of segments (`/a/b` is `["a", "b"]`);
* the filesystem is an association list from paths to file contents,
  threaded explicitly through every mutating operation;
* `async` functions returning results or throwing typed errors become
  functions into `Except CoreError`; mutating ones also return the new
  filesystem state;
* symbolic-link resolution by the operating system is abstracted as a
  function `real : Path → Path` applied to the lexically normalized
  absolute path, as the spec prescribes (section 4.1).
-/

deriving instance DecidableEq for Except

namespace Editor4ai

/-- A filesystem path, as its list of segments: `/a/b` is `["a", "b"]`. -/
abbrev Path := List String

/-- The error taxonomy of the core (spec section 7). -/
inductive CoreError where
  | pathEscape
  | pathRestricted
  | fileNotFound
  | invalidRange
deriving DecidableEq, Repr

/-- Splits a character list on a separator character. -/
def splitOnChar (sep : Char) : List Char → List (List Char)
  | [] => [[]]
  | c :: cs =>
    let r := splitOnChar sep cs
    if c = sep then [] :: r
    else
      match r with
      | [] => [[c]]
      | h :: t => (c :: h) :: t

/-- The segments of a caller-supplied path string: split on `/`, dropping
the empty segments produced by leading, trailing or redundant separators.
The logical root `"/"` parses to `[]`. -/
def parsePath (s : String) : Path :=
  ((splitOnChar '/' s.data).map (fun cs => String.mk cs)).filter (fun seg => seg ≠ "")

/-- One left-to-right pass resolving `.` and `..` segments; `acc` holds the
segments already produced, in reverse.  A `..` above the filesystem root is
dropped, as POSIX does. -/
def normSegsAux : List String → List String → List String
  | acc, [] => acc.reverse
  | acc, "." :: rest => normSegsAux acc rest
  | acc, ".." :: rest => normSegsAux acc.tail rest
  | acc, seg :: rest => normSegsAux (seg :: acc) rest

/-- Lexical normalization of an absolute path: resolves `.` and `..`. -/
def normSegs (p : Path) : Path := normSegsAux [] p

/-- Tests whether the first list is an initial run of the second. -/
def beginsWith [BEq α] : List α → List α → Bool
  | [], _ => true
  | _ :: _, [] => false
  | a :: as, b :: bs => a == b && beginsWith as bs

/-- Modelled from the spec: `resolveSafeProjectPath` lives in
`packages/lib/src/core/util.ts`, which is absent from the sources.  Spec
4.1: the caller-supplied path is resolved against the project root,
`.`/`..`/redundant separators are normalized, symbolic links are resolved
(abstracted by `real`), and the result must still lie at or under the
project root, otherwise the call fails with `PathEscapeError`.  The
logical root `"/"` maps to the project root itself. -/
def resolveSafeProjectPath (real : Path → Path) (inputPath : String)
    (projectRoot : Path) : Except CoreError Path :=
  let resolved := real (normSegs (projectRoot ++ parsePath inputPath))
  if beginsWith projectRoot resolved then .ok resolved else .error .pathEscape

/-- Recursion core of `segMatch`; `fuel` bounds the recursion depth and is
chosen large enough that the fallback case is never reached. -/
def segMatchGo : Nat → List Char → List Char → Bool
  | 0, p, s => p.isEmpty && s.isEmpty
  | fuel + 1, p, s =>
    match p, s with
    | [], [] => true
    | [], _ :: _ => false
    | '*' :: ps, [] => segMatchGo fuel ps []
    | '*' :: ps, c :: cs => segMatchGo fuel ps (c :: cs) || segMatchGo fuel ('*' :: ps) cs
    | _ :: _, [] => false
    | p1 :: ps, c :: cs => p1 == c && segMatchGo fuel ps cs

/-- Glob match of one pattern segment against one path segment: `*` matches
any run of characters within the segment, other characters literally. -/
def segMatch (p s : List Char) : Bool :=
  segMatchGo (p.length + s.length) p s

/-- Recursion core of `globConsume`; `fuel` bounds the recursion depth and
is chosen large enough that the fallback case is never reached. -/
def globConsumeGo : Nat → List (List Char) → List (List Char) → Bool
  | 0, p, _ => p.isEmpty
  | fuel + 1, p, s =>
    match p, s with
    | [], _ => true
    | p1 :: ps, [] => p1 == ['*', '*'] && globConsumeGo fuel ps []
    | p1 :: ps, s1 :: ss =>
      if p1 == ['*', '*'] then
        globConsumeGo fuel ps (s1 :: ss) || globConsumeGo fuel (p1 :: ps) ss
      else segMatch p1 s1 && globConsumeGo fuel ps ss

/-- Glob match of a pattern against the leading segments of a path: `**`
matches across segments, any other pattern segment matches one path
segment via `segMatch`; once the pattern is consumed the remaining deeper
segments are accepted (a directory pattern denies its whole subtree). -/
def globConsume (p s : List (List Char)) : Bool :=
  globConsumeGo (p.length + s.length) p s

/-- A pattern matches a path when it matches starting at any of the path's
segments (segment-aware containment). -/
def globAnywhere (pat : List (List Char)) : List (List Char) → Bool
  | [] => globConsume pat []
  | s :: ss => globConsume pat (s :: ss) || globAnywhere pat ss

/-- Modelled from the spec: `isExcluded` lives in
`packages/lib/src/core/util.ts`, absent from the sources.  Spec 4.1: the
path is tested against each pattern with glob semantics (`*` within a
segment, `**` across segments), case-sensitively and segment-aware; true
on the first matching pattern. -/
def isExcluded (path : Path) (patterns : List String) : Bool :=
  patterns.any fun pat =>
    globAnywhere ((parsePath pat).map (fun seg => seg.data)) (path.map (fun seg => seg.data))

/-- From `packages/lib/src/core/utils/validation.ts`: throws
`PathRestrictedError` when the path matches an exclusion pattern. -/
def checkExcludedFiles (filePath : Path) (excludedPattern : List String) :
    Except CoreError Unit :=
  if isExcluded filePath excludedPattern then .error .pathRestricted else .ok ()

/-- From `packages/lib/src/core/utils/validation.ts`: the boolean form of
the same exclusion test. -/
def isExcludedFiles (filePath : Path) (excludedPattern : List String) : Bool :=
  if isExcluded filePath excludedPattern then true else false

/-- The filesystem, as an association list from paths to file contents. -/
abbrev Fs := List (Path × String)

/-- Reads a file's content, `none` when absent. -/
def fsRead : Fs → Path → Option String
  | [], _ => none
  | (q, c) :: rest, p => if q = p then some c else fsRead rest p

/-- Writes a file, replacing an existing entry or appending a new one. -/
def fsWrite : Fs → Path → String → Fs
  | [], p, c => [(p, c)]
  | (q, d) :: rest, p, c =>
    if q = p then (p, c) :: rest else (q, d) :: fsWrite rest p c

/-- Removes a file. -/
def fsRemove : Fs → Path → Fs
  | [], _ => []
  | (q, d) :: rest, p =>
    if q = p then fsRemove rest p else (q, d) :: fsRemove rest p

/-- A file's content as its 1-based ordered sequence of lines: split on
newline boundaries. -/
def splitLines (s : String) : List String :=
  (splitOnChar '\n' s.data).map (fun cs => String.mk cs)

/-- Re-joins a line document with the newline separator. -/
def joinLines : List String → String
  | [] => ""
  | [l] => l
  | l :: ls => l ++ "\n" ++ joinLines ls

/-- One replace operation of an edit batch (type `MulchEditLines` of
`core/files.ts`, fields as in the server's zod schema): lines
`startLine..endLine` inclusive, 1-based, are replaced by `content`. -/
structure MulchEditLines where
  startLine : Nat
  endLine : Nat
  content : String
deriving DecidableEq, Repr

/-- One delete operation of an edit batch (type `MulchLines` of
`core/files.ts`): lines `startLine..endLine` inclusive are removed. -/
structure MulchLines where
  startLine : Nat
  endLine : Nat
deriving DecidableEq, Repr

/-- One insert operation of an edit batch (type `MulchInsertLines` of
`core/files.ts`, fields as in the server's zod schema): `content` is
inserted at line `lineNumber`; whether before or after that line is the
call-level `afterMode` flag. -/
structure MulchInsertLines where
  lineNumber : Nat
  content : String
deriving DecidableEq, Repr

/-- The tagged union of the three edit-operation variants (spec section 3,
`EditOperation`). -/
inductive EditOperation where
  | insert (atLine : Nat) (content : String) (after : Bool)
  | replace (startLine : Nat) (endLine : Nat) (content : String)
  | delete (startLine : Nat) (endLine : Nat)
deriving DecidableEq, Repr

/-- The starting line of an operation's range (the insert point for an
insert). -/
def EditOperation.startLine : EditOperation → Nat
  | .insert a _ _ => a
  | .replace s _ _ => s
  | .delete s _ => s

/-- The ending line of an operation's range (the insert point for an
insert). -/
def EditOperation.endLine : EditOperation → Nat
  | .insert a _ _ => a
  | .replace _ e _ => e
  | .delete _ e => e

/-- Spec 4.3 validation of a single operation: line bounds are at least 1
and the range is not inverted. -/
def validOp (o : EditOperation) : Bool :=
  1 ≤ o.startLine && o.startLine ≤ o.endLine

/-- Two closed ranges `[startLine, endLine]` intersect. -/
def overlaps (a b : EditOperation) : Bool :=
  a.startLine ≤ b.endLine && b.startLine ≤ a.endLine

/-- Some two operations of the batch have intersecting ranges. -/
def hasOverlap : List EditOperation → Bool
  | [] => false
  | o :: os => os.any (overlaps o) || hasOverlap os

/-- Spec 4.3 batch validation: every operation is well formed and no two
ranges overlap; a violation rejects the whole batch. -/
def validateOps (ops : List EditOperation) : Bool :=
  ops.all validOp && !hasOverlap ops

/-- The descending order used to apply a batch: later list positions hold
lower starting lines. -/
def opGE (a b : EditOperation) : Prop := b.startLine ≤ a.startLine

instance : DecidableRel opGE := fun a b => Nat.decLe b.startLine a.startLine

instance : IsTotal EditOperation opGE :=
  ⟨fun a b => (Nat.le_total b.startLine a.startLine).imp id id⟩

instance : IsTrans EditOperation opGE :=
  ⟨fun _ _ _ h1 h2 => Nat.le_trans h2 h1⟩

/-- Sorts a batch by starting line, descending (spec 4.3: apply
highest-numbered edits first). -/
def sortDesc (ops : List EditOperation) : List EditOperation :=
  List.insertionSort opGE ops

/-- Splices `lines` into `doc` in front of the 0-based position `k`. -/
def spliceAt : Nat → List String → List String → List String
  | 0, lines, doc => lines ++ doc
  | _ + 1, lines, [] => lines
  | k + 1, lines, d :: doc => d :: spliceAt k lines doc

/-- Applies one operation to a line document, using 1-based original line
numbers (spec 4.3): an insert splices the split content before the insert
point (`after = false`) or behind it (`after = true`); a replace removes
lines `startLine..endLine` and splices the split content in their place; a
delete removes them. -/
def applyOp (o : EditOperation) (doc : List String) : List String :=
  match o with
  | .insert atLine content after =>
    spliceAt (if after then atLine else atLine - 1) (splitLines content) doc
  | .replace s e content => doc.take (s - 1) ++ splitLines content ++ doc.drop e
  | .delete s e => doc.take (s - 1) ++ doc.drop e

/-- Applies a validated batch: sort by starting line descending, then apply
back-to-front against the original document (spec 4.3). -/
def applyBatch (ops : List EditOperation) (doc : List String) : List String :=
  (sortDesc ops).foldl (fun d o => applyOp o d) doc

/-- The structured result of `mulchEditLines`: the message handed back and
the resulting document's text. -/
structure EditResult where
  message : String
  content : String
deriving DecidableEq, Repr

/-- The replace batch as generic operations. -/
def toEditOps (editlines : List MulchEditLines) : List EditOperation :=
  editlines.map fun o => .replace o.startLine o.endLine o.content

/-- The delete batch as generic operations. -/
def toDeleteOps (editlines : List MulchLines) : List EditOperation :=
  editlines.map fun o => .delete o.startLine o.endLine

/-- The insert batch as generic operations under one `afterMode` flag. -/
def toInsertOps (afterMode : Bool) (editlines : List MulchInsertLines) :
    List EditOperation :=
  editlines.map fun o => .insert o.lineNumber o.content afterMode

/-- Modelled from the spec: `mulchEditLines` lives in `core/files.ts`,
absent from the sources.  Spec 4.3: read the file (fail with
`FileNotFoundError` when absent), validate the batch (fail with
`InvalidRangeError` before any mutation), apply it sorted descending; in
preview mode return the in-memory result without writing, otherwise
persist the re-joined document.  The diff rendering of the preview is not
modelled; the result carries the resulting document text. -/
def mulchEditLines (fs : Fs) (filePath : Path) (editlines : List MulchEditLines)
    (previewFlg : Bool) : Fs × Except CoreError EditResult :=
  match fsRead fs filePath with
  | none => (fs, .error .fileNotFound)
  | some content =>
    let ops := toEditOps editlines
    if validateOps ops then
      let newText := joinLines (applyBatch ops (splitLines content))
      if previewFlg then
        (fs, .ok { message := "preview only, not saved", content := newText })
      else
        (fsWrite fs filePath newText,
          .ok { message := "edited, line numbers have shifted", content := newText })
    else (fs, .error .invalidRange)

/-- Modelled from the spec: `mulchInsertLines` of `core/files.ts`, absent
from the sources.  Reads, validates, applies the insert batch sorted
descending and persists the result. -/
def mulchInsertLines (fs : Fs) (filePath : Path)
    (editlines : List MulchInsertLines) (afterMode : Bool) :
    Fs × Except CoreError String :=
  match fsRead fs filePath with
  | none => (fs, .error .fileNotFound)
  | some content =>
    let ops := toInsertOps afterMode editlines
    if validateOps ops then
      let newText := joinLines (applyBatch ops (splitLines content))
      (fsWrite fs filePath newText, .ok "inserted, line numbers have shifted")
    else (fs, .error .invalidRange)

/-- Modelled from the spec: `mulchDeleteLines` of `core/files.ts`, absent
from the sources.  Reads, validates, applies the delete batch sorted
descending and persists the result. -/
def mulchDeleteLines (fs : Fs) (filePath : Path) (editlines : List MulchLines) :
    Fs × Except CoreError String :=
  match fsRead fs filePath with
  | none => (fs, .error .fileNotFound)
  | some content =>
    let ops := toDeleteOps editlines
    if validateOps ops then
      let newText := joinLines (applyBatch ops (splitLines content))
      (fsWrite fs filePath newText, .ok "removed, line numbers have shifted")
    else (fs, .error .invalidRange)

/-- Renders a path's segments back to its absolute string form. -/
def renderPath (p : Path) : String :=
  p.foldl (fun acc seg => acc ++ "/" ++ seg) ""

/-- Recursion core of `removeAllOcc`; `fuel` bounds the recursion depth
and is chosen at least the text's length, so the out-of-fuel case is never
reached. -/
def removeAllOccGo : Nat → List Char → List Char → List Char
  | _, _, [] => []
  | 0, _, text => text
  | fuel + 1, root, c :: cs =>
    if !root.isEmpty && beginsWith root (c :: cs) then
      removeAllOccGo fuel root ((c :: cs).drop root.length)
    else
      c :: removeAllOccGo fuel root cs

/-- Removes, in one left-to-right pass, every scanned occurrence of `root`
from `text`: at each position, when `root` is a nonempty leading run it is
dropped and the scan resumes behind it, otherwise the character is kept. -/
def removeAllOcc (root text : List Char) : List Char :=
  removeAllOccGo text.length root text

/-- Modelled from the spec: `convertToRelativePaths` of `core/util.ts`,
absent from the sources.  Spec 4.1 `toRelative`: a best-effort plain
substring replacement rewriting every occurrence of the absolute project
root inside the text with the empty relative marker. -/
def convertToRelativePaths (text : String) (projectRoot : String) : String :=
  String.mk (removeAllOcc projectRoot.data text.data)

/-- Tests whether the pattern occurs contiguously in the text. -/
def containsSub (pat : List Char) : List Char → Bool
  | [] => pat.isEmpty
  | c :: cs => beginsWith pat (c :: cs) || containsSub pat cs

/-- One search hit (spec section 3, `SearchMatch`); the context lines and
capture info are not modelled, no claim depends on them. -/
structure SearchMatch where
  filePath : Path
  lineNumber : Nat
  lineText : String
deriving DecidableEq, Repr

/-- A line matches the pattern when the pattern occurs in it (the literal
branch of the matching options; the regex, case and context options are
not modelled, no claim depends on them). -/
def lineMatches (pattern line : String) : Bool :=
  containsSub pattern.data line.data

/-- Modelled from the spec: `fileGrep` of `core/search.ts`, absent from
the sources.  Spec 4.4: the pattern is tested per line; a matching line
yields one `SearchMatch` with its 1-based line number and text. -/
def fileGrep (filePath : Path) (pattern : String) (content : String) :
    List SearchMatch :=
  ((splitLines content).enum.filter (fun pr => lineMatches pattern pr.2)).map
    fun pr => { filePath := filePath, lineNumber := pr.1 + 1, lineText := pr.2 }

/-- Concatenated image of a list under a list-valued function. -/
def concatMap (f : α → List β) : List α → List β
  | [] => []
  | a :: as => f a ++ concatMap f as

/-- Modelled from the spec: `projectGrep` of `core/search.ts`, absent from
the sources.  Spec 4.4: walks the files under the root, silently skipping
files matching the per-call exclusion patterns, and applies the per-file
match logic to every included file. -/
def projectGrep (fs : Fs) (rootPath : Path) (pattern : String)
    (callExclude : List String) : List SearchMatch :=
  concatMap (fun e => fileGrep e.1 pattern e.2)
    (fs.filter fun e => beginsWith rootPath e.1 && !isExcluded e.1 callExclude)

/-- From `operations/search-operations.ts` `findInFileCore`: resolve the
path into the sandbox, fail with `PathRestrictedError` when it is
excluded, then grep the single file.  (The serialization of the result to
JSON and its path-relativization are not modelled here; the match list is
returned.) -/
def findInFileCore (real : Path → Path) (fs : Fs) (path : String)
    (pattern : String) (projectPath : Path) (excludedPattern : List String) :
    Except CoreError (List SearchMatch) :=
  match resolveSafeProjectPath real path projectPath with
  | .error e => .error e
  | .ok safeFilePath =>
    match checkExcludedFiles safeFilePath excludedPattern with
    | .error e => .error e
    | .ok _ =>
      match fsRead fs safeFilePath with
      | none => .error .fileNotFound
      | some content => .ok (fileGrep safeFilePath pattern content)

/-- From `operations/search-operations.ts` `projectGrepCore`, result step:
resolve the logical root, run the project-wide grep (no exclusion guard is
raised), then filter out every match whose file path hits the exclusion
patterns. -/
def projectGrepResults (real : Path → Path) (fs : Fs) (projectPath : Path)
    (excludedPattern : List String) (pattern : String)
    (callExclude : List String) : Except CoreError (List SearchMatch) :=
  match resolveSafeProjectPath real "/" projectPath with
  | .error e => .error e
  | .ok safeFilePath =>
    .ok ((projectGrep fs safeFilePath pattern callExclude).filter
      fun item => !isExcludedFiles item.filePath excludedPattern)

/-- A line-oriented stand-in for the JSON serialization of the matches:
each match contributes its absolute file path and its line text. -/
def serializeMatches : List SearchMatch → String
  | [] => ""
  | m :: ms => renderPath m.filePath ++ ":" ++ m.lineText ++ "\n" ++ serializeMatches ms

/-- From `operations/search-operations.ts` `projectGrepCore`: the filtered
results are serialized and the absolute project root occurrences are
rewritten to relative form before return. -/
def projectGrepCore (real : Path → Path) (fs : Fs) (projectPath : Path)
    (excludedPattern : List String) (pattern : String)
    (callExclude : List String) : Except CoreError String :=
  match projectGrepResults real fs projectPath excludedPattern pattern callExclude with
  | .error e => .error e
  | .ok results =>
    .ok (convertToRelativePaths (serializeMatches results) (renderPath projectPath))

/-- Modelled from the spec: `writeTextFile` of `core/files.ts`, absent
from the sources — persists the content and reports the written path. -/
def writeTextFile (fs : Fs) (filePath : Path) (content : String) :
    Fs × String :=
  (fsWrite fs filePath content, "file written: " ++ renderPath filePath)

/-- From `operations/file-operations.ts` `writeFileCore`: resolve into the
sandbox, guard against exclusion, write, and relativize the returned
message. -/
def writeFileCore (real : Path → Path) (fs : Fs) (path : String)
    (content : String) (projectPath : Path) (excludedPattern : List String) :
    Fs × Except CoreError String :=
  match resolveSafeProjectPath real path projectPath with
  | .error e => (fs, .error e)
  | .ok safeFilePath =>
    match checkExcludedFiles safeFilePath excludedPattern with
    | .error e => (fs, .error e)
    | .ok _ =>
      let (fs2, message) := writeTextFile fs safeFilePath content
      (fs2, .ok (convertToRelativePaths message (renderPath projectPath)))

/-- Modelled from the spec: `fileMoveOrRename` of `core/files.ts`, absent
from the sources — moves the source file's content to the destination
path and reports the move; fails when the source does not exist. -/
def fileMoveOrRename (fs : Fs) (srcPath distPath : Path) :
    Fs × Except CoreError String :=
  match fsRead fs srcPath with
  | none => (fs, .error .fileNotFound)
  | some content =>
    (fsWrite (fsRemove fs srcPath) distPath content,
      .ok ("moved " ++ renderPath srcPath ++ " to " ++ renderPath distPath))

/-- From `operations/file-operations.ts` `fileMoveOrRenameCore`: both the
source and the destination are resolved into the sandbox and guarded
against exclusion before the rename primitive runs. -/
def fileMoveOrRenameCore (real : Path → Path) (fs : Fs)
    (srcPath distPath : String) (projectPath : Path)
    (excludedPattern : List String) : Fs × Except CoreError String :=
  match resolveSafeProjectPath real srcPath projectPath with
  | .error e => (fs, .error e)
  | .ok safeSrcPath =>
    match checkExcludedFiles safeSrcPath excludedPattern with
    | .error e => (fs, .error e)
    | .ok _ =>
      match resolveSafeProjectPath real distPath projectPath with
      | .error e => (fs, .error e)
      | .ok safeDistPath =>
        match checkExcludedFiles safeDistPath excludedPattern with
        | .error e => (fs, .error e)
        | .ok _ =>
          match fileMoveOrRename fs safeSrcPath safeDistPath with
          | (fs2, .error e) => (fs2, .error e)
          | (fs2, .ok message) =>
            (fs2, .ok (convertToRelativePaths message (renderPath projectPath)))

/-- From `operations/edit-operations.ts` `mulchEditLinesInFileCore`:
resolve into the sandbox, guard against exclusion, run the batched line
edit (preview by default), and relativize the returned message. -/
def mulchEditLinesInFileCore (real : Path → Path) (fs : Fs) (path : String)
    (editlines : List MulchEditLines) (projectPath : Path)
    (excludedPattern : List String) (previewFlg : Bool) :
    Fs × Except CoreError EditResult :=
  match resolveSafeProjectPath real path projectPath with
  | .error e => (fs, .error e)
  | .ok safeFilePath =>
    match checkExcludedFiles safeFilePath excludedPattern with
    | .error e => (fs, .error e)
    | .ok _ =>
      match mulchEditLines fs safeFilePath editlines previewFlg with
      | (fs2, .error e) => (fs2, .error e)
      | (fs2, .ok res) =>
        (fs2, .ok { res with
          message := convertToRelativePaths res.message (renderPath projectPath) })

/-- From `operations/edit-operations.ts` `mulchInsertLinesInFileCore`:
resolve into the sandbox, guard against exclusion, run the batched insert,
and relativize the returned message. -/
def mulchInsertLinesInFileCore (real : Path → Path) (fs : Fs) (path : String)
    (editlines : List MulchInsertLines) (projectPath : Path)
    (excludedPattern : List String) (afterMode : Bool) :
    Fs × Except CoreError String :=
  match resolveSafeProjectPath real path projectPath with
  | .error e => (fs, .error e)
  | .ok safeFilePath =>
    match checkExcludedFiles safeFilePath excludedPattern with
    | .error e => (fs, .error e)
    | .ok _ =>
      match mulchInsertLines fs safeFilePath editlines afterMode with
      | (fs2, .error e) => (fs2, .error e)
      | (fs2, .ok message) =>
        (fs2, .ok (convertToRelativePaths message (renderPath projectPath)))

/-- From `operations/edit-operations.ts` `mulchDeleteLinesInFileCore`:
resolve into the sandbox, guard against exclusion, run the batched delete,
and relativize the returned message. -/
def mulchDeleteLinesInFileCore (real : Path → Path) (fs : Fs) (path : String)
    (editlines : List MulchLines) (projectPath : Path)
    (excludedPattern : List String) : Fs × Except CoreError String :=
  match resolveSafeProjectPath real path projectPath with
  | .error e => (fs, .error e)
  | .ok safeFilePath =>
    match checkExcludedFiles safeFilePath excludedPattern with
    | .error e => (fs, .error e)
    | .ok _ =>
      match mulchDeleteLines fs safeFilePath editlines with
      | (fs2, .error e) => (fs2, .error e)
      | (fs2, .ok message) =>
        (fs2, .ok (convertToRelativePaths message (renderPath projectPath)))

/-! ## Theorems -/

/-- With a lawful equality test, every list is an initial run of itself. -/
theorem beginsWith_refl [BEq α] [LawfulBEq α] (l : List α) :
    beginsWith l l = true := by
  induction l with
  | nil => rfl
  | cons a as ih => simp [beginsWith, ih]

/-- C1: every caller-supplied path whose normalized absolute form (after
resolving `.`, `..`, redundant separators and, via `real`, symbolic links)
does not lie at or under the project root makes `resolveSafeProjectPath`
fail with `PathEscapeError`; conversely every returned path lies at or
under the project root; and the logical root `"/"` resolves to the project
root itself (when the configured root is normal and not itself a link). -/
theorem resolveSafeProjectPath_confines (real : Path → Path) (inputPath : String)
    (projectRoot : Path) :
    (beginsWith projectRoot (real (normSegs (projectRoot ++ parsePath inputPath))) = false →
      resolveSafeProjectPath real inputPath projectRoot = .error .pathEscape)
    ∧ (∀ q, resolveSafeProjectPath real inputPath projectRoot = .ok q →
        beginsWith projectRoot q = true)
    ∧ (normSegs projectRoot = projectRoot → real projectRoot = projectRoot →
        resolveSafeProjectPath real "/" projectRoot = .ok projectRoot) := by
  refine ⟨?_, ?_, ?_⟩
  · intro h
    simp only [resolveSafeProjectPath, h]
    rfl
  · intro q hq
    simp only [resolveSafeProjectPath] at hq
    by_cases hb : beginsWith projectRoot
        (real (normSegs (projectRoot ++ parsePath inputPath))) = true
    · rw [hb] at hq
      simp only [if_true] at hq
      cases hq
      exact hb
    · rw [Bool.not_eq_true] at hb
      rw [hb] at hq
      simp only [Bool.false_eq_true, if_false] at hq
      cases hq
  · intro h1 h2
    have hp : parsePath "/" = ([] : Path) := by decide
    simp only [resolveSafeProjectPath, hp, List.append_nil, h1, h2,
      beginsWith_refl, if_true]

/-- Witness for C1 at concrete inputs: `../etc` escapes the root
`/home/proj` and is rejected, while the logical root resolves to the
project root. -/
theorem resolveSafeProjectPath_confines_witness :
    resolveSafeProjectPath id "../etc" ["home", "proj"] = .error .pathEscape
    ∧ resolveSafeProjectPath id "/" ["home", "proj"] = .ok ["home", "proj"] := by
  constructor
  · exact (resolveSafeProjectPath_confines id "../etc" ["home", "proj"]).1 (by decide)
  · exact (resolveSafeProjectPath_confines id "/" ["home", "proj"]).2.2 (by decide) rfl

/-- C9: the raising guard `checkExcludedFiles` and the boolean test
`isExcludedFiles` decide exactly the same predicate, namely `isExcluded`:
the guard throws `PathRestrictedError` precisely when the boolean test
returns true, and returns normally precisely when it returns false. -/
theorem checkExcludedFiles_iff_isExcludedFiles (filePath : Path)
    (excludedPattern : List String) :
    (checkExcludedFiles filePath excludedPattern = .error .pathRestricted ↔
      isExcludedFiles filePath excludedPattern = true)
    ∧ (checkExcludedFiles filePath excludedPattern = .ok () ↔
      isExcludedFiles filePath excludedPattern = false)
    ∧ isExcludedFiles filePath excludedPattern = isExcluded filePath excludedPattern := by
  unfold checkExcludedFiles isExcludedFiles
  cases h : isExcluded filePath excludedPattern <;> simp

/-- Witness for C9 at concrete inputs: `.git` under the project is
restricted by the guard and flagged by the boolean test; `src` is not. -/
theorem checkExcludedFiles_iff_isExcludedFiles_witness :
    checkExcludedFiles ["proj", ".git"] [".git"] = .error .pathRestricted
    ∧ checkExcludedFiles ["proj", "src"] [".git"] = .ok () := by
  constructor
  · exact (checkExcludedFiles_iff_isExcludedFiles ["proj", ".git"] [".git"]).1.mpr (by decide)
  · exact (checkExcludedFiles_iff_isExcludedFiles ["proj", "src"] [".git"]).2.1.mpr (by decide)

/-- C6: a direct single-file search against an excluded path fails with
`PathRestrictedError` before any file is read (the filesystem is
universally quantified, so the outcome does not depend on any file's
presence or content), whereas a project-wide search never raises on
excluded files: whenever the logical root resolves, it returns a success
result, silently skipping and filtering the excluded files. -/
theorem findInFileCore_restricted_projectGrepCore_skips (real : Path → Path)
    (fs : Fs) (path pattern : String) (projectPath safe : Path)
    (excludedPattern callExclude : List String) :
    (resolveSafeProjectPath real path projectPath = .ok safe →
      isExcluded safe excludedPattern = true →
      findInFileCore real fs path pattern projectPath excludedPattern =
        .error .pathRestricted)
    ∧ (∀ rootSafe, resolveSafeProjectPath real "/" projectPath = .ok rootSafe →
        ∃ out, projectGrepCore real fs projectPath excludedPattern pattern callExclude =
          .ok out) := by
  constructor
  · intro hres hex
    simp only [findInFileCore, checkExcludedFiles, hres, hex, if_true]
  · intro rootSafe hres
    simp only [projectGrepCore, projectGrepResults, hres]
    exact ⟨_, rfl⟩

/-- Witness for C6 at concrete inputs: with exclusion pattern `secret`, a
direct grep of `secret/s.txt` is rejected even on an empty filesystem,
while a project grep over a filesystem containing an excluded file
succeeds. -/
theorem findInFileCore_restricted_projectGrepCore_skips_witness :
    findInFileCore id [] "secret/s.txt" "hit" ["r"] ["secret"] = .error .pathRestricted
    ∧ ∃ out, projectGrepCore id [(["r", "secret", "s.txt"], "hit")] ["r"] ["secret"] "hit" [] =
        .ok out := by
  constructor
  · exact (findInFileCore_restricted_projectGrepCore_skips id [] "secret/s.txt" "hit"
      ["r"] ["r", "secret", "s.txt"] ["secret"] []).1 (by decide) (by decide)
  · exact (findInFileCore_restricted_projectGrepCore_skips id
      [(["r", "secret", "s.txt"], "hit")] "x" "hit" ["r"] [] ["secret"] []).2
      ["r"] (by decide)

/-- C10: `fileMoveOrRenameCore` resolves and checks the source and the
destination independently before the rename primitive runs; when either
path escapes the sandbox or matches an exclusion pattern, the call returns
the corresponding error and the filesystem is returned unchanged — nothing
is moved, created or removed. -/
theorem fileMoveOrRenameCore_guards (real : Path → Path) (fs : Fs)
    (srcPath distPath : String) (projectPath : Path)
    (excludedPattern : List String) :
    (∀ e, resolveSafeProjectPath real srcPath projectPath = .error e →
      fileMoveOrRenameCore real fs srcPath distPath projectPath excludedPattern =
        (fs, .error e))
    ∧ (∀ s, resolveSafeProjectPath real srcPath projectPath = .ok s →
        isExcluded s excludedPattern = true →
        fileMoveOrRenameCore real fs srcPath distPath projectPath excludedPattern =
          (fs, .error .pathRestricted))
    ∧ (∀ s e, resolveSafeProjectPath real srcPath projectPath = .ok s →
        isExcluded s excludedPattern = false →
        resolveSafeProjectPath real distPath projectPath = .error e →
        fileMoveOrRenameCore real fs srcPath distPath projectPath excludedPattern =
          (fs, .error e))
    ∧ (∀ s d, resolveSafeProjectPath real srcPath projectPath = .ok s →
        isExcluded s excludedPattern = false →
        resolveSafeProjectPath real distPath projectPath = .ok d →
        isExcluded d excludedPattern = true →
        fileMoveOrRenameCore real fs srcPath distPath projectPath excludedPattern =
          (fs, .error .pathRestricted)) := by
  refine ⟨?_, ?_, ?_, ?_⟩
  · intro e h
    simp only [fileMoveOrRenameCore, h]
  · intro s hs hex
    simp only [fileMoveOrRenameCore, checkExcludedFiles, hs, hex, if_true]
  · intro s e hs hex hd
    simp only [fileMoveOrRenameCore, checkExcludedFiles, hs, hex, hd,
      Bool.false_eq_true, if_false]
  · intro s d hs hex hd hdex
    simp only [fileMoveOrRenameCore, checkExcludedFiles, hs, hex, hd, hdex,
      Bool.false_eq_true, if_false, if_true]

/-- Witness for C10 at concrete inputs: a destination escaping the root
aborts the move with `PathEscapeError`, and an excluded source aborts it
with `PathRestrictedError`; the filesystem comes back unchanged in both
cases. -/
theorem fileMoveOrRenameCore_guards_witness :
    fileMoveOrRenameCore id [(["r", "a.txt"], "data")] "a.txt" "../out.txt" ["r"] [] =
      ([(["r", "a.txt"], "data")], .error .pathEscape)
    ∧ fileMoveOrRenameCore id [(["r", ".env"], "k")] ".env" "b.txt" ["r"] [".env"] =
      ([(["r", ".env"], "k")], .error .pathRestricted) := by
  constructor
  · exact (fileMoveOrRenameCore_guards id [(["r", "a.txt"], "data")] "a.txt"
      "../out.txt" ["r"] []).2.2.1 ["r", "a.txt"] .pathEscape (by decide) (by decide)
      (by decide)
  · exact (fileMoveOrRenameCore_guards id [(["r", ".env"], "k")] ".env" "b.txt"
      ["r"] [".env"]).2.1 ["r", ".env"] (by decide) (by decide)

/-- C2: a batch failing validation — a line bound below 1, an inverted
range, or two overlapping ranges — makes the whole call fail with
`InvalidRangeError` and leaves the filesystem (hence the target file's
content) unchanged, for each of the three line-edit entry points. -/
theorem invalid_batch_rejected_atomically (real : Path → Path) (fs : Fs)
    (path : String) (projectPath safe : Path) (excludedPattern : List String)
    (content : String) (eops : List MulchEditLines) (iops : List MulchInsertLines)
    (dops : List MulchLines) (previewFlg afterMode : Bool)
    (hres : resolveSafeProjectPath real path projectPath = .ok safe)
    (hex : isExcluded safe excludedPattern = false)
    (hread : fsRead fs safe = some content) :
    (validateOps (toEditOps eops) = false →
      mulchEditLinesInFileCore real fs path eops projectPath excludedPattern previewFlg =
        (fs, .error .invalidRange))
    ∧ (validateOps (toInsertOps afterMode iops) = false →
      mulchInsertLinesInFileCore real fs path iops projectPath excludedPattern afterMode =
        (fs, .error .invalidRange))
    ∧ (validateOps (toDeleteOps dops) = false →
      mulchDeleteLinesInFileCore real fs path dops projectPath excludedPattern =
        (fs, .error .invalidRange)) := by
  refine ⟨?_, ?_, ?_⟩ <;> intro hval
  · simp only [mulchEditLinesInFileCore, checkExcludedFiles, mulchEditLines,
      hres, hex, hread, hval, Bool.false_eq_true, if_false]
  · simp only [mulchInsertLinesInFileCore, checkExcludedFiles, mulchInsertLines,
      hres, hex, hread, hval, Bool.false_eq_true, if_false]
  · simp only [mulchDeleteLinesInFileCore, checkExcludedFiles, mulchDeleteLines,
      hres, hex, hread, hval, Bool.false_eq_true, if_false]

/-- Witness for C2 at concrete inputs: an overlapping replace batch, an
insert at line 0, and an inverted delete range are each rejected with
`InvalidRangeError`, leaving the three-line file untouched. -/
theorem invalid_batch_rejected_atomically_witness :
    mulchEditLinesInFileCore id [(["r", "f"], "l1\nl2\nl3")] "f"
      [⟨1, 2, "x"⟩, ⟨2, 3, "y"⟩] ["r"] [] true =
      ([(["r", "f"], "l1\nl2\nl3")], .error .invalidRange)
    ∧ mulchInsertLinesInFileCore id [(["r", "f"], "l1\nl2\nl3")] "f"
      [⟨0, "x"⟩] ["r"] [] false =
      ([(["r", "f"], "l1\nl2\nl3")], .error .invalidRange)
    ∧ mulchDeleteLinesInFileCore id [(["r", "f"], "l1\nl2\nl3")] "f"
      [⟨3, 2⟩] ["r"] [] =
      ([(["r", "f"], "l1\nl2\nl3")], .error .invalidRange) := by
  have h := invalid_batch_rejected_atomically id [(["r", "f"], "l1\nl2\nl3")] "f"
    ["r"] ["r", "f"] [] "l1\nl2\nl3" [⟨1, 2, "x"⟩, ⟨2, 3, "y"⟩] [⟨0, "x"⟩] [⟨3, 2⟩]
    true false (by decide) (by decide) (by decide)
  exact ⟨h.1 (by decide), h.2.1 (by decide), h.2.2 (by decide)⟩

/-- C3: with the preview flag set (the default), a batched line edit never
writes — whatever the inputs, the filesystem handed back is the one handed
in — and, on the successful path, the resulting document is computed in
memory and returned in the result's content. -/
theorem preview_mode_never_mutates (real : Path → Path) (fs : Fs) (path : String)
    (editlines : List MulchEditLines) (projectPath : Path)
    (excludedPattern : List String) :
    (mulchEditLinesInFileCore real fs path editlines projectPath excludedPattern true).1 = fs
    ∧ (∀ safe content,
        resolveSafeProjectPath real path projectPath = .ok safe →
        isExcluded safe excludedPattern = false →
        fsRead fs safe = some content →
        validateOps (toEditOps editlines) = true →
        (mulchEditLinesInFileCore real fs path editlines projectPath excludedPattern true).2 =
          .ok { message := convertToRelativePaths "preview only, not saved"
                  (renderPath projectPath),
                content := joinLines (applyBatch (toEditOps editlines)
                  (splitLines content)) }) := by
  constructor
  · unfold mulchEditLinesInFileCore
    cases hres : resolveSafeProjectPath real path projectPath with
    | error e => rfl
    | ok safe =>
      dsimp only
      cases hchk : checkExcludedFiles safe excludedPattern with
      | error e => rfl
      | ok u =>
        dsimp only
        unfold mulchEditLines
        cases hread : fsRead fs safe with
        | none => rfl
        | some content =>
          dsimp only
          cases hval : validateOps (toEditOps editlines) with
          | false => simp [hval]
          | true => simp [hval]
  · intro safe content hres hex hread hval
    simp only [mulchEditLinesInFileCore, checkExcludedFiles, mulchEditLines,
      hres, hex, hread, hval, Bool.false_eq_true, if_false, if_true]

/-- Witness for C3 at concrete inputs: a preview edit of a two-line file
leaves the filesystem untouched and returns the in-memory result. -/
theorem preview_mode_never_mutates_witness :
    (mulchEditLinesInFileCore id [(["r", "f"], "l1\nl2")] "f" [⟨1, 1, "X"⟩]
      ["r"] [] true).1 = [(["r", "f"], "l1\nl2")]
    ∧ (mulchEditLinesInFileCore id [(["r", "f"], "l1\nl2")] "f" [⟨1, 1, "X"⟩]
      ["r"] [] true).2 =
      .ok { message := "preview only, not saved", content := "X\nl2" } := by
  constructor
  · exact (preview_mode_never_mutates id [(["r", "f"], "l1\nl2")] "f" [⟨1, 1, "X"⟩]
      ["r"] []).1
  · have h := (preview_mode_never_mutates id [(["r", "f"], "l1\nl2")] "f" [⟨1, 1, "X"⟩]
      ["r"] []).2 ["r", "f"] "l1\nl2" (by decide) (by decide) (by decide) (by decide)
    rw [h]
    decide

/-- Splicing before the 0-based position `k` of a document is the
take-append-drop decomposition at `k`, whenever `k` is in range. -/
theorem spliceAt_eq_take_append_drop (k : Nat) (lines : List String) :
    ∀ doc : List String, k ≤ doc.length →
      spliceAt k lines doc = doc.take k ++ lines ++ doc.drop k := by
  induction k with
  | zero => intro doc h; simp [spliceAt]
  | succ k ih =>
    intro doc h
    cases doc with
    | nil => simp at h
    | cons d ds =>
      simp only [spliceAt, List.take_succ_cons, List.drop_succ_cons,
        List.cons_append]
      rw [ih ds (by simpa using h)]

/-- C5: an insert with `after = false` places the split content
immediately before line `atLine` (the content becomes the new line
`atLine`), and with `after = true` immediately after it. -/
theorem insert_before_or_after_line (doc : List String) (atLine : Nat)
    (content : String) (h1 : 1 ≤ atLine) (h2 : atLine ≤ doc.length) :
    applyOp (.insert atLine content false) doc =
      doc.take (atLine - 1) ++ splitLines content ++ doc.drop (atLine - 1)
    ∧ applyOp (.insert atLine content true) doc =
      doc.take atLine ++ splitLines content ++ doc.drop atLine := by
  constructor
  · simp only [applyOp, Bool.false_eq_true, if_false]
    exact spliceAt_eq_take_append_drop (atLine - 1) (splitLines content) doc
      (by omega)
  · simp only [applyOp, if_true]
    exact spliceAt_eq_take_append_drop atLine (splitLines content) doc h2

/-- Witness for C5 at the spec's concrete inputs: inserting `X` at line 1
of `["a", "b"]` yields `["X", "a", "b"]` before-mode and `["a", "X", "b"]`
after-mode. -/
theorem insert_before_or_after_line_witness :
    applyOp (.insert 1 "X" false) ["a", "b"] = ["X", "a", "b"]
    ∧ applyOp (.insert 1 "X" true) ["a", "b"] = ["a", "X", "b"] := by
  have h := insert_before_or_after_line ["a", "b"] 1 "X" (by decide) (by decide)
  exact ⟨h.1.trans (by decide), h.2.trans (by decide)⟩

/-- The overlap check decides pairwise disjointness of the batch's ranges. -/
theorem hasOverlap_eq_false_iff (ops : List EditOperation) :
    hasOverlap ops = false ↔ ops.Pairwise (fun a b => overlaps a b = false) := by
  induction ops with
  | nil => simp [hasOverlap]
  | cons o os ih =>
    simp only [hasOverlap, Bool.or_eq_false_iff, List.pairwise_cons, ih,
      List.any_eq_false, Bool.not_eq_true]

/-- A validated batch has pairwise distinct starting lines: two well-formed
operations with the same starting line would overlap. -/
theorem validateOps_pairwise_ne (ops : List EditOperation)
    (h : validateOps ops = true) :
    ops.Pairwise fun a b => a.startLine ≠ b.startLine := by
  have hall : ∀ o ∈ ops, validOp o = true := by
    intro o ho
    have h1 : ops.all validOp = true := by
      unfold validateOps at h
      exact (Bool.and_eq_true_iff.mp h).1
    exact List.all_eq_true.mp h1 o ho
  have hover : ops.Pairwise (fun a b => overlaps a b = false) := by
    refine (hasOverlap_eq_false_iff ops).mp ?_
    unfold validateOps at h
    have h2 := (Bool.and_eq_true_iff.mp h).2
    simpa using h2
  refine hover.imp_of_mem ?_
  intro a b ha hb hab heq
  have hva := hall a ha
  have hvb := hall b hb
  unfold validOp at hva hvb
  unfold overlaps at hab
  simp only [Bool.and_eq_true, decide_eq_true_eq] at hva hvb
  simp only [Bool.and_eq_false_iff, decide_eq_false_iff_not, Nat.not_le] at hab
  omega

/-- The descending sort of a validated batch is determined by the batch's
multiset of operations: any two submission orders sort identically. -/
theorem sortDesc_eq_of_perm (ops1 ops2 : List EditOperation)
    (hperm : ops1.Perm ops2)
    (hne : ops1.Pairwise fun a b => a.startLine ≠ b.startLine) :
    sortDesc ops1 = sortDesc ops2 := by
  have hsymm : ∀ {x y : EditOperation},
      x.startLine ≠ y.startLine → y.startLine ≠ x.startLine :=
    fun h e => h e.symm
  have hp1 : (sortDesc ops1).Perm ops1 := List.perm_insertionSort opGE ops1
  have hp2 : (sortDesc ops2).Perm ops2 := List.perm_insertionSort opGE ops2
  have hp : (sortDesc ops1).Perm (sortDesc ops2) :=
    (hp1.trans hperm).trans hp2.symm
  have hne1 : (sortDesc ops1).Pairwise
      (fun a b => a.startLine ≠ b.startLine) :=
    hne.perm hp1.symm hsymm
  have hne2 : (sortDesc ops2).Pairwise
      (fun a b => a.startLine ≠ b.startLine) :=
    hne.perm (hperm.trans hp2.symm) hsymm
  have hs1 : (sortDesc ops1).Pairwise opGE :=
    List.sorted_insertionSort opGE ops1
  have hs2 : (sortDesc ops2).Pairwise opGE :=
    List.sorted_insertionSort opGE ops2
  have hst1 : (sortDesc ops1).Pairwise
      (fun a b => b.startLine < a.startLine) :=
    (hs1.and hne1).imp fun hab => Nat.lt_of_le_of_ne hab.1 fun e => hab.2 e.symm
  have hst2 : (sortDesc ops2).Pairwise
      (fun a b => b.startLine < a.startLine) :=
    (hs2.and hne2).imp fun hab => Nat.lt_of_le_of_ne hab.1 fun e => hab.2 e.symm
  haveI : IsAntisymm EditOperation (fun a b => b.startLine < a.startLine) :=
    ⟨fun _ _ h1 h2 => absurd h1 (Nat.lt_asymm h2)⟩
  exact List.eq_of_perm_of_sorted hp hst1 hst2

/-- C4: applying a validated edit batch is independent of the order its
operations were submitted in — the batch is sorted by starting line
descending and applied back-to-front against the original document, so any
permutation of the batch produces the same document. -/
theorem applyBatch_order_independent (doc : List String)
    (ops1 ops2 : List EditOperation) (hperm : ops1.Perm ops2)
    (hvalid : validateOps ops1 = true) :
    applyBatch ops1 doc = applyBatch ops2 doc := by
  unfold applyBatch
  rw [sortDesc_eq_of_perm ops1 ops2 hperm (validateOps_pairwise_ne ops1 hvalid)]

/-- Witness for C4 at the spec's concrete inputs: on the 5-line file both
submission orders of the batch `[Replace(2,2,"B"), Delete(4,4)]` give
`["a", "B", "c", "e"]`. -/
theorem applyBatch_order_independent_witness :
    applyBatch [.replace 2 2 "B", .delete 4 4] ["a", "b", "c", "d", "e"] =
      applyBatch [.delete 4 4, .replace 2 2 "B"] ["a", "b", "c", "d", "e"]
    ∧ applyBatch [.replace 2 2 "B", .delete 4 4] ["a", "b", "c", "d", "e"] =
      ["a", "B", "c", "e"]
    ∧ applyBatch [.delete 4 4, .replace 2 2 "B"] ["a", "b", "c", "d", "e"] =
      ["a", "B", "c", "e"] := by
  refine ⟨applyBatch_order_independent ["a", "b", "c", "d", "e"]
    [.replace 2 2 "B", .delete 4 4] [.delete 4 4, .replace 2 2 "B"]
    (List.Perm.swap _ _ _) (by decide), by decide, by decide⟩

/-- Membership in a concatenated image comes from membership in one of the
pieces. -/
theorem mem_concatMap {f : α → List β} {l : List α} {b : β} :
    b ∈ concatMap f l ↔ ∃ a, a ∈ l ∧ b ∈ f a := by
  induction l with
  | nil => simp [concatMap]
  | cons x xs ih =>
    simp only [concatMap, List.mem_append, ih, List.mem_cons]
    constructor
    · rintro (h | ⟨a, ha, hb⟩)
      · exact ⟨x, Or.inl rfl, h⟩
      · exact ⟨a, Or.inr ha, hb⟩
    · rintro ⟨a, ha | ha, hb⟩
      · subst ha; exact Or.inl hb
      · exact Or.inr ⟨a, ha, hb⟩

/-- Every match produced by grepping one file carries that file's path. -/
theorem fileGrep_filePath {m : SearchMatch} {p : Path} {pat c : String}
    (h : m ∈ fileGrep p pat c) : m.filePath = p := by
  unfold fileGrep at h
  rw [List.mem_map] at h
  obtain ⟨pr, _, hm⟩ := h
  rw [← hm]

/-- C7: no match surviving into the result set of a project-wide search
comes from an excluded file — the post-filter removes every match hitting
the global/project exclusion patterns, and the tree walk already skipped
the files hit by the per-call patterns. -/
theorem projectGrepResults_exclude (real : Path → Path) (fs : Fs)
    (projectPath : Path) (excludedPattern : List String) (pattern : String)
    (callExclude : List String) (res : List SearchMatch) (m : SearchMatch)
    (hok : projectGrepResults real fs projectPath excludedPattern pattern callExclude =
      .ok res)
    (hm : m ∈ res) :
    isExcludedFiles m.filePath excludedPattern = false
    ∧ isExcluded m.filePath callExclude = false := by
  unfold projectGrepResults at hok
  cases hres : resolveSafeProjectPath real "/" projectPath with
  | error e =>
    rw [hres] at hok
    cases hok
  | ok safe =>
    rw [hres] at hok
    injection hok with hok
    subst hok
    rw [List.mem_filter] at hm
    refine ⟨?_, ?_⟩
    · have h2 := hm.2
      rwa [Bool.not_eq_eq_eq_not, Bool.not_true] at h2
    · have hmem := hm.1
      unfold projectGrep at hmem
      rw [mem_concatMap] at hmem
      obtain ⟨e, he, hmf⟩ := hmem
      rw [List.mem_filter] at he
      have hfp := fileGrep_filePath hmf
      rw [hfp]
      have h2 := he.2
      rw [Bool.and_eq_true] at h2
      have h3 := h2.2
      rwa [Bool.not_eq_eq_eq_not, Bool.not_true] at h3

/-- Witness for C7 at concrete inputs: with exclusion pattern `secret`,
only the match from the non-excluded file survives, and its path passes
both exclusion tests. -/
theorem projectGrepResults_exclude_witness :
    isExcludedFiles (SearchMatch.mk ["r", "a.txt"] 1 "hit here").filePath ["secret"] = false
    ∧ isExcluded (SearchMatch.mk ["r", "a.txt"] 1 "hit here").filePath [] = false := by
  exact projectGrepResults_exclude id
    [(["r", "a.txt"], "hit here"), (["r", "secret", "s.txt"], "hit too")]
    ["r"] ["secret"] "hit" [] [⟨["r", "a.txt"], 1, "hit here"⟩]
    ⟨["r", "a.txt"], 1, "hit here"⟩ (by decide) (by decide)

/-- A nonempty initial run is no longer than the list it begins. -/
theorem beginsWith_length {pre l : List Char} (h : beginsWith pre l = true) :
    pre.length ≤ l.length := by
  induction pre generalizing l with
  | nil => simp
  | cons a as ih =>
    cases l with
    | nil => cases h
    | cons b bs =>
      simp only [beginsWith, Bool.and_eq_true] at h
      simpa using ih h.2

/-- The replacement scan never lengthens the text. -/
theorem removeAllOccGo_length_le (fuel : Nat) :
    ∀ (root text : List Char), (removeAllOccGo fuel root text).length ≤ text.length := by
  induction fuel with
  | zero =>
    intro root text
    cases text <;> simp [removeAllOccGo]
  | succ fuel ih =>
    intro root text
    cases text with
    | nil => simp [removeAllOccGo]
    | cons c cs =>
      simp only [removeAllOccGo]
      by_cases h : (!root.isEmpty && beginsWith root (c :: cs)) = true
      · rw [if_pos h]
        refine Nat.le_trans (ih root _) ?_
        simp only [List.length_drop, List.length_cons]
        omega
      · rw [if_neg h]
        simpa using ih root cs

/-- A text containing no occurrence of a pattern is returned unchanged by
the replacement scan. -/
theorem removeAllOccGo_not_contains (fuel : Nat) :
    ∀ (root text : List Char), containsSub root text = false →
      removeAllOccGo fuel root text = text := by
  induction fuel with
  | zero =>
    intro root text _
    cases text <;> rfl
  | succ fuel ih =>
    intro root text h
    cases text with
    | nil => rfl
    | cons c cs =>
      simp only [containsSub, Bool.or_eq_false_iff] at h
      simp only [removeAllOccGo, h.1, Bool.and_false, Bool.false_eq_true,
        if_false]
      rw [ih root cs h.2]

/-- A text containing an occurrence of a nonempty pattern comes back from
the replacement scan shorter by at least the pattern's length, given
enough fuel. -/
theorem removeAllOccGo_contains_shrinks (fuel : Nat) :
    ∀ (root text : List Char), root ≠ [] → text.length ≤ fuel →
      containsSub root text = true →
      (removeAllOccGo fuel root text).length + root.length ≤ text.length := by
  induction fuel with
  | zero =>
    intro root text hroot hlen hcon
    have : text = [] := List.length_eq_zero.mp (Nat.le_zero.mp hlen)
    subst this
    simp only [containsSub, List.isEmpty_iff] at hcon
    exact absurd hcon hroot
  | succ fuel ih =>
    intro root text hroot hlen hcon
    cases text with
    | nil =>
      simp only [containsSub, List.isEmpty_iff] at hcon
      exact absurd hcon hroot
    | cons c cs =>
      have hiE : root.isEmpty = false := by
        cases root with
        | nil => exact absurd rfl hroot
        | cons a as => rfl
      simp only [removeAllOccGo]
      by_cases h : (!root.isEmpty && beginsWith root (c :: cs)) = true
      · rw [if_pos h]
        have hb : beginsWith root (c :: cs) = true := by
          simp only [Bool.and_eq_true] at h
          exact h.2
        have hrl : root.length ≤ (c :: cs).length := beginsWith_length hb
        have hd := removeAllOccGo_length_le fuel root ((c :: cs).drop root.length)
        simp only [List.length_drop, List.length_cons] at hd
        simp only [List.length_cons] at hrl ⊢
        omega
      · rw [if_neg h]
        have hne : beginsWith root (c :: cs) = false := by
          cases hbw : beginsWith root (c :: cs) with
          | false => rfl
          | true => exact absurd (by rw [hiE, hbw]; rfl) h
        have hcs : containsSub root cs = true := by
          simp only [containsSub, hne, Bool.false_or] at hcon
          exact hcon
        have hfl : cs.length ≤ fuel := by
          simp only [List.length_cons] at hlen
          omega
        have hrec := ih root cs hroot hfl hcs
        simp only [List.length_cons]
        omega

/-- C8 (amended): the project-root redaction is a single left-to-right
non-overlapping substring replacement — a text free of the root comes back
unchanged, and a text containing the root loses at least one full
occurrence (the result is shorter by at least the root's length).  The
original claim that no returned string can contain the root fails: removal
can juxtapose surrounding text into a fresh occurrence (see the
counterexample), the best-effort limitation the spec itself flags. -/
theorem convertToRelativePaths_best_effort (text projectRoot : String)
    (hroot : projectRoot.data ≠ []) :
    (containsSub projectRoot.data text.data = false →
      convertToRelativePaths text projectRoot = text)
    ∧ (containsSub projectRoot.data text.data = true →
      (convertToRelativePaths text projectRoot).data.length +
        projectRoot.data.length ≤ text.data.length) := by
  constructor
  · intro h
    unfold convertToRelativePaths removeAllOcc
    rw [removeAllOccGo_not_contains _ _ _ h]
  · intro h
    unfold convertToRelativePaths removeAllOcc
    exact removeAllOccGo_contains_shrinks _ _ _ hroot (Nat.le_refl _) h

/-- Witness for the amended C8 at concrete inputs: a root-free message is
unchanged, and a message containing the root shrinks by the root's
length. -/
theorem convertToRelativePaths_best_effort_witness :
    convertToRelativePaths "no root here" "/a/b" = "no root here"
    ∧ (convertToRelativePaths "/a/b/f.txt" "/a/b").data.length +
      "/a/b".data.length ≤ "/a/b/f.txt".data.length := by
  constructor
  · exact (convertToRelativePaths_best_effort "no root here" "/a/b"
      (by decide)).1 (by decide)
  · exact (convertToRelativePaths_best_effort "/a/b/f.txt" "/a/b"
      (by decide)).2 (by decide)

/-- Counterexample to C8 as stated: a successful project-wide search over
the root `/a/b` whose matched line text is `/a/a/b/b` returns the string
`/f:/a/b` — removing the inner occurrence of the root juxtaposed `/a` and
`/b` into a fresh occurrence of the absolute project root, so the returned
string does contain it. -/
theorem projectGrepCore_can_return_root :
    projectGrepCore id [(["a", "b", "f"], "/a/a/b/b")] ["a", "b"] [] "/a" [] =
      .ok "/f:/a/b\n"
    ∧ renderPath ["a", "b"] = "/a/b"
    ∧ containsSub "/a/b".data "/f:/a/b\n".data = true
    ∧ convertToRelativePaths "/a/a/b/b" "/a/b" = "/a/b" := by
  exact ⟨by decide, by decide, by decide, by decide⟩

end Editor4ai
